import Mathlib

/-! cpp-py-kvstore: the key-value store and the command protocol of the server.

Shallow embedding of `server/src/kvstore.cpp` (class `KVStore`) and of
`server/src/server.cpp` (`Server::processCommand`, `Server::handleClient`).

* A `std::string` is a `List Char` (`Str`); string literals of the source are
  written `"...".toList`.
* `std::unordered_map<std::string, std::string>` is an association list whose
  keys are pairwise different.
* `std::istringstream` is the unread rest of its buffer together with its
  `eofbit` and `failbit`; `operator>>` and `std::getline` are functions on it.
* A member function that changes `store_` returns the new store next to its
  result.
-/

set_option autoImplicit false

/-- A `std::string`: its sequence of characters. -/
abbrev Str := List Char

/-- The entries of a `std::unordered_map<std::string, std::string>`. -/
abbrev Entries := List (Str × Str)

namespace Entries

/-- `data_.find(key)`: the value stored under `key`, if any. -/
def find : Entries → Str → Option Str
  | [], _ => none
  | (k, v) :: t, key => if k = key then some v else find t key

/-- `data_.count(key)`: the number of entries under `key`. -/
def count (l : Entries) (key : Str) : Nat :=
  (l.filter (fun p => decide (p.1 = key))).length

/-- `data_[key] = value`: assigns to the entry under `key`, which is created
when the map has none. -/
def assign : Entries → Str → Str → Entries
  | [], key, value => [(key, value)]
  | (k, v) :: t, key, value =>
    if k = key then (k, value) :: t else (k, v) :: assign t key value

/-- The entries `data_.erase(key)` leaves. -/
def erase (l : Entries) (key : Str) : Entries :=
  l.filter (fun p => !decide (p.1 = key))

end Entries

/-- `class KVStore`: the member `data_`, a map, so no key occurs twice. -/
structure KVStore where
  data_ : Entries
  nodup : (data_.map Prod.fst).Nodup

namespace KVStore

/-- A default-constructed `KVStore`. -/
def empty : KVStore := ⟨[], List.nodup_nil⟩

/-- `KVStore::set`. -/
def set (s : KVStore) (key value : Str) : KVStore :=
  ⟨Entries.assign s.data_ key value, by
    have hkeys : ∀ l : Entries, (Entries.assign l key value).map Prod.fst
        = if key ∈ l.map Prod.fst then l.map Prod.fst else l.map Prod.fst ++ [key] := by
      intro l
      induction l with
      | nil => simp [Entries.assign]
      | cons p t ih =>
        obtain ⟨k, v⟩ := p
        by_cases h : k = key
        · simp [Entries.assign, h]
        · have h2 : ¬ key = k := fun e => h e.symm
          by_cases hm : key ∈ t.map Prod.fst
          · simp only [Entries.assign, h, if_false, List.map_cons, ih, hm, if_true,
              List.mem_cons, or_true]
          · simp only [Entries.assign, h, if_false, List.map_cons, ih, hm,
              List.mem_cons, h2, or_self, List.cons_append]
    rw [hkeys]
    split
    · exact s.nodup
    · rename_i hm
      rw [List.nodup_append]
      refine ⟨s.nodup, List.nodup_singleton _, ?_⟩
      intro a ha hb
      rw [List.mem_singleton] at hb
      exact hm (hb ▸ ha)⟩

/-- `KVStore::get`: `none` is `std::nullopt`. -/
def get (s : KVStore) (key : Str) : Option Str :=
  Entries.find s.data_ key

/-- `KVStore::remove`: whether `erase` removed an entry, and the store left. -/
def remove (s : KVStore) (key : Str) : Bool × KVStore :=
  (decide (Entries.count s.data_ key > 0),
   ⟨Entries.erase s.data_ key,
    ((List.filter_sublist s.data_).map Prod.fst).nodup s.nodup⟩)

/-- `KVStore::exists`. -/
def «exists» (s : KVStore) (key : Str) : Bool :=
  decide (Entries.count s.data_ key > 0)

/-- `KVStore::size`. -/
def size (s : KVStore) : Nat := s.data_.length

/-- `KVStore::clear`. -/
def clear (_s : KVStore) : KVStore := empty

end KVStore

/-- The state of a `std::istringstream`: the characters not yet read and the
two state bits the source depends on. The stream is `good()` when neither is
set, and converts to `true` when `failbit` is not set. -/
structure IStringStream where
  buf : Str
  eofbit : Bool
  failbit : Bool

/-- `std::isspace` in the classic locale, which `operator>>` skips and stops
at: space, `\t`, `\n`, `\v`, `\f`, `\r`. -/
def isspace (c : Char) : Bool :=
  c = ' ' || (9 ≤ c.toNat && c.toNat ≤ 13)

namespace IStringStream

/-- `std::istringstream stream(data)`. -/
def init (data : Str) : IStringStream := ⟨data, false, false⟩

/-- `is >> str` for a `std::string`. A stream that is not good only gets
`failbit` and leaves `str` as it was. Otherwise leading whitespace is skipped;
at the end of the buffer both bits are set and `str` is left as it was; else
`str` becomes the characters up to the next whitespace, and `eofbit` is set
when the end of the buffer stopped the extraction. -/
def extract (is : IStringStream) (str : Str) : IStringStream × Str :=
  if is.eofbit || is.failbit then
    ({ is with failbit := true }, str)
  else
    match is.buf.dropWhile isspace with
    | [] => (⟨[], true, true⟩, str)
    | c :: r =>
      let rest := (c :: r).dropWhile (fun x => !isspace x)
      (⟨rest, rest.isEmpty, false⟩, (c :: r).takeWhile (fun x => !isspace x))

/-- `std::getline(is, str)` with the delimiter `\n`. A stream that is not
good only gets `failbit` and leaves `str` as it was. Otherwise `str` becomes
the characters before the next `\n`, which is consumed; when the buffer ends
first `eofbit` is set, and `failbit` too if nothing was read. -/
def getline (is : IStringStream) (str : Str) : IStringStream × Str :=
  if is.eofbit || is.failbit then
    ({ is with failbit := true }, str)
  else
    let line := is.buf.takeWhile (fun x => x != '\n')
    match is.buf.dropWhile (fun x => x != '\n') with
    | [] => (⟨[], true, line.isEmpty⟩, line)
    | _ :: rest => (⟨rest, false, false⟩, line)

end IStringStream

/-- `Server::processCommand` (server.cpp 127-185): the response and the store
the call leaves. `cmd`, `key` and `value` start empty. -/
def processCommand (store_ : KVStore) (command : Str) : Str × KVStore :=
  let iss := IStringStream.init command
  let (iss, cmd) := iss.extract []
  let (iss, key) := iss.extract []
  if cmd = "SET".toList then
    let (_, value) := iss.getline []
    let value := if !value.isEmpty && value.head? = some ' ' then value.drop 1 else value
    if key.isEmpty || value.isEmpty then
      ("ERROR MISSING_ARGUMENTS\n".toList, store_)
    else
      ("OK\n".toList, store_.set key value)
  else if cmd = "GET".toList then
    if key.isEmpty then
      ("ERROR MISSING_ARGUMENTS\n".toList, store_)
    else
      match store_.get key with
      | some result => ("OK ".toList ++ result ++ "\n".toList, store_)
      | none => ("ERROR KEY_NOT_FOUND\n".toList, store_)
  else if cmd = "DELETE".toList then
    if key.isEmpty then
      ("ERROR MISSING_ARGUMENTS\n".toList, store_)
    else
      let (removed, store_) := store_.remove key
      if removed then ("OK\n".toList, store_) else ("ERROR KEY_NOT_FOUND\n".toList, store_)
  else if cmd = "EXISTS".toList then
    if key.isEmpty then
      ("ERROR MISSING_ARGUMENTS\n".toList, store_)
    else
      (if store_.exists key then "OK 1\n".toList else "OK 0\n".toList, store_)
  else
    ("ERROR INVALID_COMMAND\n".toList, store_)

/-- The loop `while (std::getline(stream, line))` of `Server::handleClient`
(server.cpp 103-123) with the stream, `line`, the store and the bytes sent so
far as its state. One trailing `\r` is removed from the line, an empty line is
skipped, and the response of any other line is sent. `none` only when `fuel`
iterations did not reach the end of the loop. -/
def lineLoop : Nat → IStringStream → Str → KVStore → Str → Option (Str × KVStore)
  | 0, _, _, _, _ => none
  | fuel + 1, stream, line, store_, sent =>
    let (stream, line) := stream.getline line
    if stream.failbit then
      some (sent, store_)
    else
      let line := if !line.isEmpty && line.getLast? = some '\r' then line.dropLast else line
      if line.isEmpty then
        lineLoop fuel stream line store_ sent
      else
        let (response, store_) := processCommand store_ line
        lineLoop fuel stream line store_ (sent ++ response)

/-- The body of the receive loop of `Server::handleClient` (server.cpp 96-123)
for the bytes `data` of one `recv`: the bytes sent and the store left. Every
iteration but the last consumes a `\n` or reaches the end of `data`, so
`data.length + 2` iterations are enough. -/
def handleChunk (store_ : KVStore) (data : Str) : Option (Str × KVStore) :=
  lineLoop (data.length + 2) (IStringStream.init data) [] store_ []

/-- `Server::handleClient` (server.cpp 81-125) on the successive results of
`recv`, each the bytes read; an empty result (`bytes_read <= 0`) or the end of
the list ends the loop. The bytes sent over the connection and the store left. -/
def handleClient (store_ : KVStore) : List Str → Option (Str × KVStore)
  | [] => some ([], store_)
  | data :: more =>
    if data.isEmpty then
      some ([], store_)
    else
      match handleChunk store_ data with
      | none => none
      | some (sent, store_) =>
        match handleClient store_ more with
        | none => none
        | some (sent2, store_) => some (sent ++ sent2, store_)

/-- The first whitespace-delimited token of a line (empty when the line has
none): the verb of a command line. -/
def firstToken (line : Str) : Str :=
  (line.dropWhile isspace).takeWhile (fun x => !isspace x)

/-- What follows the first whitespace-delimited token of a line. -/
def afterToken (line : Str) : Str :=
  (line.dropWhile isspace).dropWhile (fun x => !isspace x)

/-- The key token of a command line: the token that follows the verb. -/
def keyToken (line : Str) : Str := firstToken (afterToken line)

/-- The remainder of a command line after its key token. -/
def afterKey (line : Str) : Str := afterToken (afterToken line)

/-- The value of a `SET` line: the remainder after the key token up to a
`\n`, with one leading space removed. -/
def valueOf (line : Str) : Str :=
  let value := (afterKey line).takeWhile (fun x => x != '\n')
  if !value.isEmpty && value.head? = some ' ' then value.drop 1 else value

/-- The store after a finite sequence of `processCommand` calls, in order. -/
def runCommands (store_ : KVStore) (commands : List Str) : KVStore :=
  commands.foldl (fun t c => (processCommand t c).2) store_

/-- A line with one trailing `\r`, if it has one, removed. -/
def stripCR (l : Str) : Str :=
  if l.getLast? = some '\r' then l.dropLast else l

/-- One response per command, in order: the responses of `processCommand` to
the lines that are not empty after one trailing `\r` is removed, each on the
store the lines before it left, concatenated; and the store left at the end.
Empty lines add no bytes and leave the store. -/
def respondLines : KVStore → List Str → Str × KVStore
  | store_, [] => ([], store_)
  | store_, l :: ls =>
    if stripCR l = [] then
      respondLines store_ ls
    else
      ((processCommand store_ (stripCR l)).1
          ++ (respondLines (processCommand store_ (stripCR l)).2 ls).1,
        (respondLines (processCommand store_ (stripCR l)).2 ls).2)

/-- The lines that successive `std::getline` calls read from `data`: the
pieces between the `\n`s, and the piece after the last `\n` when it is not
empty. -/
def getlines : Str → List Str
  | [] => []
  | c :: cs =>
    if c = '\n' then [] :: getlines cs
    else
      match getlines cs with
      | [] => [[c]]
      | l :: ls => (c :: l) :: ls

/-- An entry as `Server::processCommand` stores it: the key is not empty and
has no whitespace, the value is not empty and has no `\n`. -/
def EntryOk (p : Str × Str) : Prop :=
  p.1 ≠ [] ∧ (∀ c ∈ p.1, isspace c = false) ∧ p.2 ≠ [] ∧ '\n' ∉ p.2

/-! ## The store -/

namespace Entries

theorem find_assign_self (l : Entries) (key value : Str) :
    find (assign l key value) key = some value := by
  induction l with
  | nil => simp [assign, find]
  | cons p t ih =>
    obtain ⟨k, v⟩ := p
    by_cases h : k = key
    · simp [assign, find, h]
    · simp [assign, find, h, ih]

theorem find_assign_ne (l : Entries) (key value other : Str) (hne : other ≠ key) :
    find (assign l key value) other = find l other := by
  induction l with
  | nil =>
    have h : ¬ key = other := fun e => hne e.symm
    simp [assign, find, h]
  | cons p t ih =>
    obtain ⟨k, v⟩ := p
    by_cases h : k = key
    · have h2 : ¬ key = other := fun e => hne e.symm
      simp [assign, find, h, h2]
    · by_cases h3 : k = other
      · subst h3
        simp [assign, find, hne]
      · simp [assign, find, h, h3, ih]

theorem count_pos_iff_find (l : Entries) (key : Str) :
    0 < count l key ↔ find l key ≠ none := by
  induction l with
  | nil => simp [count, find]
  | cons p t ih =>
    obtain ⟨k, v⟩ := p
    by_cases h : k = key
    · simp [count, find, h]
    · simp only [count, find, h, if_false, List.filter_cons, decide_False, Bool.false_eq_true]
      exact ih

theorem count_erase_self (l : Entries) (key : Str) : count (erase l key) key = 0 := by
  simp [count, erase, List.filter_filter]

theorem erase_of_count_eq_zero (l : Entries) (key : Str) (h : count l key = 0) :
    erase l key = l := by
  unfold erase
  rw [List.filter_eq_self]
  intro p hp
  unfold count at h
  rw [List.length_eq_zero, List.filter_eq_nil_iff] at h
  simpa using h p hp

end Entries

namespace KVStore

theorem ext_data {s t : KVStore} (h : s.data_ = t.data_) : s = t := by
  cases s; cases t; cases h; rfl

theorem exists_iff_get (s : KVStore) (key : Str) :
    s.exists key = true ↔ s.get key ≠ none := by
  simp only [KVStore.exists, get, decide_eq_true_eq]
  exact Entries.count_pos_iff_find s.data_ key

theorem exists_false_iff_get (s : KVStore) (key : Str) :
    s.exists key = false ↔ s.get key = none := by
  rw [← not_iff_not]
  simpa using exists_iff_get s key

theorem get_set_self (s : KVStore) (key value : Str) :
    (s.set key value).get key = some value :=
  Entries.find_assign_self s.data_ key value

theorem remove_fst (s : KVStore) (key : Str) : (s.remove key).1 = s.exists key := rfl

theorem exists_remove_self (s : KVStore) (key : Str) :
    (s.remove key).2.exists key = false := by
  simp [KVStore.exists, remove, Entries.count_erase_self]

theorem remove_of_absent (s : KVStore) (key : Str) (h : s.exists key = false) :
    (s.remove key).2 = s := by
  apply ext_data
  apply Entries.erase_of_count_eq_zero
  simpa [KVStore.exists] using h

end KVStore

/-! ## The stream operations -/

theorem dropWhile_isspace_of_firstToken_nil (l : Str) (h : firstToken l = []) :
    l.dropWhile isspace = [] := by
  unfold firstToken at h
  have hd := List.head?_dropWhile_not isspace l
  cases hl : l.dropWhile isspace with
  | nil => rfl
  | cons c r =>
    rw [hl] at h hd
    simp only [List.head?_cons] at hd
    simp [List.takeWhile_cons, hd] at h

theorem afterToken_of_firstToken_nil (l : Str) (h : firstToken l = []) :
    afterToken l = [] := by
  unfold afterToken
  rw [dropWhile_isspace_of_firstToken_nil l h]
  rfl

namespace IStringStream

theorem extract_init (line : Str) :
    (init line).extract []
      = (⟨afterToken line, (afterToken line).isEmpty, (line.dropWhile isspace).isEmpty⟩,
         firstToken line) := by
  unfold extract init firstToken afterToken
  cases h : line.dropWhile isspace <;> simp

/-- The second `>>` of `processCommand` reads the key token, and the `getline`
that follows it reads the remainder of the line up to a `\n`. -/
theorem extract_getline (rest : Str) (f : Bool) (hf : f = true → rest = []) :
    ((⟨rest, rest.isEmpty, f⟩ : IStringStream).extract []).2 = firstToken rest ∧
    ((((⟨rest, rest.isEmpty, f⟩ : IStringStream).extract []).1).getline []).2
      = (afterToken rest).takeWhile (fun x => x != '\n') := by
  cases rest with
  | nil => cases f <;> simp [extract, getline, firstToken, afterToken]
  | cons a t =>
    have hf2 : f = false := by
      cases f
      · rfl
      · exact absurd (hf rfl) (by simp)
    subst hf2
    cases h : (a :: t).dropWhile isspace with
    | nil => simp [extract, getline, firstToken, afterToken, h]
    | cons c r =>
      cases h2 : (c :: r).dropWhile (fun x => !isspace x) with
      | nil => simp [extract, getline, firstToken, afterToken, h, h2]
      | cons d u =>
        simp only [extract, getline, firstToken, afterToken, h, h2, List.isEmpty_cons,
          Bool.or_self, Bool.false_eq_true, if_false, true_and]
        cases h3 : (d :: u).dropWhile (fun x => x != '\n') <;> simp

end IStringStream

/-! ## `processCommand` in terms of the tokens of the line -/

/-- The stream operations of `processCommand` read the verb token, the key
token and, for `SET`, the remainder after the key token up to a `\n`. -/
theorem processCommand_eq (store_ : KVStore) (line : Str) :
    processCommand store_ line =
      if firstToken line = "SET".toList then
        let value := (afterKey line).takeWhile (fun x => x != '\n')
        let value := if !value.isEmpty && value.head? = some ' ' then value.drop 1 else value
        if (keyToken line).isEmpty || value.isEmpty then
          ("ERROR MISSING_ARGUMENTS\n".toList, store_)
        else
          ("OK\n".toList, store_.set (keyToken line) value)
      else if firstToken line = "GET".toList then
        if (keyToken line).isEmpty then
          ("ERROR MISSING_ARGUMENTS\n".toList, store_)
        else
          match store_.get (keyToken line) with
          | some result => ("OK ".toList ++ result ++ "\n".toList, store_)
          | none => ("ERROR KEY_NOT_FOUND\n".toList, store_)
      else if firstToken line = "DELETE".toList then
        if (keyToken line).isEmpty then
          ("ERROR MISSING_ARGUMENTS\n".toList, store_)
        else if (store_.remove (keyToken line)).1 then
          ("OK\n".toList, (store_.remove (keyToken line)).2)
        else
          ("ERROR KEY_NOT_FOUND\n".toList, (store_.remove (keyToken line)).2)
      else if firstToken line = "EXISTS".toList then
        if (keyToken line).isEmpty then
          ("ERROR MISSING_ARGUMENTS\n".toList, store_)
        else
          (if store_.exists (keyToken line) then "OK 1\n".toList else "OK 0\n".toList, store_)
      else
        ("ERROR INVALID_COMMAND\n".toList, store_) := by
  have hf : (line.dropWhile isspace).isEmpty = true → afterToken line = [] := by
    intro h
    rw [List.isEmpty_iff] at h
    simp [afterToken, h]
  obtain ⟨hkey, hval⟩ := IStringStream.extract_getline (afterToken line) _ hf
  unfold processCommand
  simp only [IStringStream.extract_init]
  rcases hp : (IStringStream.extract ⟨afterToken line, (afterToken line).isEmpty,
    (line.dropWhile isspace).isEmpty⟩ []) with ⟨iss2, key⟩
  rw [hp] at hkey hval
  simp only at hkey hval
  rcases hg : iss2.getline [] with ⟨iss3, value⟩
  rw [hg] at hval
  simp only at hval
  subst hkey hval
  rfl

/-! ## Tokens of a line that starts with a word -/

/-- A word `w` that is followed by the end of the line or by whitespace, after
leading whitespace `ws`, is the first token, and what follows it is left. -/
theorem tokens_of_word (ws w rest : Str) (hws : ∀ c ∈ ws, isspace c = true)
    (hw : w ≠ []) (hwn : ∀ c ∈ w, isspace c = false)
    (hr : ∀ c ∈ rest.head?, isspace c = true) :
    firstToken (ws ++ (w ++ rest)) = w ∧ afterToken (ws ++ (w ++ rest)) = rest := by
  have h1 : (ws ++ (w ++ rest)).dropWhile isspace = w ++ rest := by
    rw [List.dropWhile_append_of_pos hws]
    cases w with
    | nil => exact absurd rfl hw
    | cons a t =>
      have ha : isspace a = false := hwn a (List.mem_cons_self a t)
      simp [List.dropWhile_cons, ha]
  have hwn2 : ∀ c ∈ w, (fun x => !isspace x) c = true := by
    intro c hc
    simp [hwn c hc]
  have h2 : rest.takeWhile (fun x => !isspace x) = [] ∧
      rest.dropWhile (fun x => !isspace x) = rest := by
    cases rest with
    | nil => simp
    | cons b u =>
      have hb : isspace b = true := hr b (by simp)
      simp [List.takeWhile_cons, List.dropWhile_cons, hb]
  unfold firstToken afterToken
  rw [h1, List.takeWhile_append_of_pos hwn2, List.dropWhile_append_of_pos hwn2, h2.1, h2.2]
  simp

/-- The tokens of the line `verb ++ " " ++ k ++ rest` for a verb in capital
letters and a key `k` without whitespace. -/
theorem tokens_verb_key (verb k rest : Str) (hverb : verb ≠ [])
    (hv : ∀ c ∈ verb, isspace c = false)
    (hk : k ≠ []) (hkw : ∀ c ∈ k, isspace c = false)
    (hr : ∀ c ∈ rest.head?, isspace c = true) :
    firstToken (verb ++ ' ' :: (k ++ rest)) = verb ∧
    keyToken (verb ++ ' ' :: (k ++ rest)) = k ∧
    afterKey (verb ++ ' ' :: (k ++ rest)) = rest := by
  have h1 := tokens_of_word [] verb (' ' :: (k ++ rest)) (by simp) hverb hv
    (by simp [isspace])
  have h2 := tokens_of_word [' '] k rest (by simp [isspace]) hk hkw hr
  simp only [List.nil_append, List.singleton_append] at h1 h2
  unfold keyToken afterKey
  rw [h1.1, h1.2, h2.1, h2.2]
  exact ⟨rfl, rfl, rfl⟩

theorem KVStore.exists_iff_mem (s : KVStore) (key : Str) :
    s.exists key = true ↔ key ∈ s.data_.map Prod.fst := by
  simp only [KVStore.exists, decide_eq_true_eq, Entries.count, gt_iff_lt, List.length_pos,
    ne_eq, List.filter_eq_nil_iff, not_forall, List.mem_map]
  constructor
  · rintro ⟨p, hp, h⟩
    exact ⟨p, hp, by simpa using h⟩
  · rintro ⟨p, hp, h⟩
    exact ⟨p, hp, by simpa using h⟩

theorem KVStore.get_of_not_mem (s : KVStore) (key : Str)
    (h : key ∉ s.data_.map Prod.fst) : s.get key = none := by
  rw [← KVStore.exists_false_iff_get]
  rw [← KVStore.exists_iff_mem] at h
  simpa using h

/-! ## The responses of `processCommand` to well-formed commands -/

theorem processCommand_set (s : KVStore) (k v : Str)
    (hk : k ≠ []) (hkw : ∀ c ∈ k, isspace c = false)
    (hv : v ≠ []) (hvn : '\n' ∉ v) :
    processCommand s ("SET ".toList ++ k ++ " ".toList ++ v)
      = ("OK\n".toList, s.set k v) := by
  have ht := tokens_verb_key "SET".toList k (' ' :: v) (by simp) (by decide) hk hkw
    (by simp [isspace])
  have e : "SET ".toList ++ k ++ " ".toList ++ v
      = "SET".toList ++ ' ' :: (k ++ ' ' :: v) := by simp
  have hv2 : ∀ c ∈ v, (fun x => x != '\n') c = true := by
    intro c hc
    have : c ≠ '\n' := fun e => hvn (e ▸ hc)
    simpa using this
  have htake : (' ' :: v).takeWhile (fun x => x != '\n') = ' ' :: v := by
    rw [List.takeWhile_eq_self_iff]
    intro c hc
    rcases List.mem_cons.1 hc with h | h
    · subst h; decide
    · exact hv2 c h
  rw [e, processCommand_eq, ht.1, ht.2.1, ht.2.2, htake]
  cases k with
  | nil => exact absurd rfl hk
  | cons a t =>
    cases v with
    | nil => exact absurd rfl hv
    | cons b u => simp

theorem processCommand_get (s : KVStore) (k : Str)
    (hk : k ≠ []) (hkw : ∀ c ∈ k, isspace c = false) :
    processCommand s ("GET ".toList ++ k)
      = match s.get k with
        | some result => ("OK ".toList ++ result ++ "\n".toList, s)
        | none => ("ERROR KEY_NOT_FOUND\n".toList, s) := by
  have ht := tokens_verb_key "GET".toList k [] (by simp) (by decide) hk hkw (by simp)
  have e : "GET ".toList ++ k = "GET".toList ++ ' ' :: (k ++ []) := by simp
  rw [e, processCommand_eq, ht.1, ht.2.1]
  cases k with
  | nil => exact absurd rfl hk
  | cons a t => simp

theorem processCommand_delete (s : KVStore) (k : Str)
    (hk : k ≠ []) (hkw : ∀ c ∈ k, isspace c = false) :
    processCommand s ("DELETE ".toList ++ k)
      = (if s.exists k then "OK\n".toList else "ERROR KEY_NOT_FOUND\n".toList,
         (s.remove k).2) := by
  have ht := tokens_verb_key "DELETE".toList k [] (by simp) (by decide) hk hkw (by simp)
  have e : "DELETE ".toList ++ k = "DELETE".toList ++ ' ' :: (k ++ []) := by simp
  rw [e, processCommand_eq, ht.1, ht.2.1, KVStore.remove_fst]
  cases k with
  | nil => exact absurd rfl hk
  | cons a t => cases KVStore.exists s (a :: t) <;> simp

theorem processCommand_exists (s : KVStore) (k : Str)
    (hk : k ≠ []) (hkw : ∀ c ∈ k, isspace c = false) :
    processCommand s ("EXISTS ".toList ++ k)
      = (if s.exists k then "OK 1\n".toList else "OK 0\n".toList, s) := by
  have ht := tokens_verb_key "EXISTS".toList k [] (by simp) (by decide) hk hkw (by simp)
  have e : "EXISTS ".toList ++ k = "EXISTS".toList ++ ' ' :: (k ++ []) := by simp
  rw [e, processCommand_eq, ht.1, ht.2.1]
  cases k with
  | nil => exact absurd rfl hk
  | cons a t => simp

theorem KVStore.exists_remove_of_absent (s : KVStore) (key other : Str)
    (h : s.exists key = false) : (s.remove other).2.exists key = false := by
  simp only [KVStore.exists, KVStore.remove, Entries.count, Entries.erase, gt_iff_lt,
    decide_eq_false_iff_not, List.length_pos, ne_eq, not_not, List.filter_eq_nil_iff,
    List.mem_filter, Bool.not_eq_true', decide_eq_false_iff_not, decide_eq_true_eq] at h ⊢
  intro p hp
  exact h p hp.1

theorem KVStore.exists_foldl_remove_of_absent (ks : List Str) (s : KVStore) (key : Str)
    (h : s.exists key = false) :
    (ks.foldl (fun t k2 => (t.remove k2).2) s).exists key = false := by
  induction ks generalizing s with
  | nil => exact h
  | cons a t ih => exact ih _ (KVStore.exists_remove_of_absent s key a h)

/-! ## Claims on the commands and on the store -/

/-- C1: for every store, every non-empty key `k` without whitespace and every
non-empty value `v` without `\n`, `processCommand("SET " + k + " " + v)`
returns `"OK\n"` and a following `processCommand("GET " + k)` returns
`"OK " + v + "\n"`. -/
theorem set_then_get_roundtrip (s : KVStore) (k v : Str)
    (hk : k ≠ []) (hkw : ∀ c ∈ k, isspace c = false)
    (hv : v ≠ []) (hvn : '\n' ∉ v) :
    (processCommand s ("SET ".toList ++ k ++ " ".toList ++ v)).1 = "OK\n".toList ∧
    (processCommand (processCommand s ("SET ".toList ++ k ++ " ".toList ++ v)).2
      ("GET ".toList ++ k)).1 = "OK ".toList ++ v ++ "\n".toList := by
  rw [processCommand_set s k v hk hkw hv hvn, processCommand_get _ k hk hkw,
    KVStore.get_set_self]
  exact ⟨rfl, rfl⟩

theorem set_then_get_roundtrip_witness :
    (processCommand KVStore.empty
      ("SET ".toList ++ "greeting".toList ++ " ".toList ++ "hello there world".toList)).1
      = "OK\n".toList ∧
    (processCommand (processCommand KVStore.empty
      ("SET ".toList ++ "greeting".toList ++ " ".toList ++ "hello there world".toList)).2
      ("GET ".toList ++ "greeting".toList)).1
      = "OK ".toList ++ "hello there world".toList ++ "\n".toList :=
  set_then_get_roundtrip KVStore.empty "greeting".toList "hello there world".toList
    (by decide) (by decide) (by decide) (by decide)

/-- C3: after `set(k, v)`, `get(k)` is present and equal to `v`, for every
store, also when `k` was present with another value and when `v` is empty;
`get` after `set(k, "")` differs from the absent result that `get` returns for
a key that is not stored. -/
theorem get_after_set (s : KVStore) (k v v0 : Str) :
    (s.set k v).get k = some v ∧
    ((s.set k v0).set k v).get k = some v ∧
    (s.set k []).get k = some [] ∧
    ∀ k2, k2 ∉ s.data_.map Prod.fst →
      s.get k2 = none ∧ (s.set k []).get k ≠ s.get k2 := by
  refine ⟨KVStore.get_set_self _ _ _, KVStore.get_set_self _ _ _,
    KVStore.get_set_self _ _ _, ?_⟩
  intro k2 h2
  have hnone := KVStore.get_of_not_mem s k2 h2
  rw [hnone, KVStore.get_set_self]
  exact ⟨rfl, by simp⟩

theorem get_after_set_witness :
    (KVStore.empty.set "name".toList []).get "name".toList
      ≠ KVStore.empty.get "notfound".toList :=
  ((get_after_set KVStore.empty "name".toList "Bob".toList "Alice".toList).2.2.2
    "notfound".toList (by decide)).2

/-- C4: for every store and every non-empty key `k` without whitespace that
is not present in the store, `processCommand("GET " + k)` returns
`"ERROR KEY_NOT_FOUND\n"`; this is so in the empty store and after a `DELETE`
of `k`. -/
theorem get_absent_key_not_found (s : KVStore) (k : Str)
    (hk : k ≠ []) (hkw : ∀ c ∈ k, isspace c = false) :
    (k ∉ s.data_.map Prod.fst →
      processCommand s ("GET ".toList ++ k) = ("ERROR KEY_NOT_FOUND\n".toList, s)) ∧
    (processCommand KVStore.empty ("GET ".toList ++ k)).1
      = "ERROR KEY_NOT_FOUND\n".toList ∧
    (processCommand (processCommand s ("DELETE ".toList ++ k)).2 ("GET ".toList ++ k)).1
      = "ERROR KEY_NOT_FOUND\n".toList := by
  refine ⟨?_, ?_, ?_⟩
  · intro h
    rw [processCommand_get s k hk hkw, KVStore.get_of_not_mem s k h]
  · rw [processCommand_get _ k hk hkw]
    rfl
  · rw [processCommand_delete s k hk hkw, processCommand_get _ k hk hkw,
      (KVStore.exists_false_iff_get _ k).1 (KVStore.exists_remove_self s k)]

theorem get_absent_key_not_found_witness :
    processCommand (KVStore.empty.set "name".toList "Alice".toList)
      ("GET ".toList ++ "notfound".toList)
      = ("ERROR KEY_NOT_FOUND\n".toList, KVStore.empty.set "name".toList "Alice".toList) :=
  (get_absent_key_not_found (KVStore.empty.set "name".toList "Alice".toList)
    "notfound".toList (by decide) (by decide)).1 (by decide)

/-- C5: for every store and non-empty key `k` without whitespace,
`processCommand("DELETE " + k)` returns `"OK\n"` if and only if `k` was
present before the call and `"ERROR KEY_NOT_FOUND\n"` otherwise, and a second
`DELETE` of the same key returns `"ERROR KEY_NOT_FOUND\n"`. -/
theorem delete_succeeds_once (s : KVStore) (k : Str)
    (hk : k ≠ []) (hkw : ∀ c ∈ k, isspace c = false) :
    ((processCommand s ("DELETE ".toList ++ k)).1 = "OK\n".toList
      ↔ k ∈ s.data_.map Prod.fst) ∧
    (k ∉ s.data_.map Prod.fst →
      (processCommand s ("DELETE ".toList ++ k)).1 = "ERROR KEY_NOT_FOUND\n".toList) ∧
    (processCommand (processCommand s ("DELETE ".toList ++ k)).2
      ("DELETE ".toList ++ k)).1 = "ERROR KEY_NOT_FOUND\n".toList := by
  rw [processCommand_delete s k hk hkw, processCommand_delete _ k hk hkw,
    KVStore.exists_remove_self, ← KVStore.exists_iff_mem]
  refine ⟨?_, ?_, rfl⟩
  · cases KVStore.exists s k <;> simp
  · intro h
    simp [h]

theorem delete_succeeds_once_witness :
    (processCommand KVStore.empty ("DELETE ".toList ++ "missing".toList)).1
      = "ERROR KEY_NOT_FOUND\n".toList :=
  (delete_succeeds_once KVStore.empty "missing".toList (by decide) (by decide)).2.1
    (by decide)

/-- C6: `remove(k)` returns true if and only if `k` was present before the
call; after the call `exists(k)` is false and `get(k)` is absent; a further
`remove(k)` returns false, also after removals of any other keys. -/
theorem remove_true_iff_present (s : KVStore) (k : Str) (ks : List Str) :
    ((s.remove k).1 = true ↔ k ∈ s.data_.map Prod.fst) ∧
    (s.remove k).2.exists k = false ∧
    (s.remove k).2.get k = none ∧
    ((s.remove k).2.remove k).1 = false ∧
    ((ks.foldl (fun t k2 => (t.remove k2).2) (s.remove k).2).remove k).1 = false := by
  have h := KVStore.exists_remove_self s k
  refine ⟨?_, h, (KVStore.exists_false_iff_get _ k).1 h, ?_, ?_⟩
  · rw [KVStore.remove_fst, KVStore.exists_iff_mem]
  · rw [KVStore.remove_fst, h]
  · rw [KVStore.remove_fst]
    exact KVStore.exists_foldl_remove_of_absent ks _ k h

/-- C7: for every store and non-empty key `k` without whitespace,
`processCommand("EXISTS " + k)` returns `"OK 1\n"` if `k` is present and
`"OK 0\n"` if it is not; every line whose verb is `GET` or `EXISTS` leaves the
store as it was, so the answer of `EXISTS` is the same after any `GET` lines. -/
theorem exists_reflects_membership (s : KVStore) (k : Str)
    (hk : k ≠ []) (hkw : ∀ c ∈ k, isspace c = false) :
    (k ∈ s.data_.map Prod.fst →
      processCommand s ("EXISTS ".toList ++ k) = ("OK 1\n".toList, s)) ∧
    (k ∉ s.data_.map Prod.fst →
      processCommand s ("EXISTS ".toList ++ k) = ("OK 0\n".toList, s)) ∧
    (∀ line, firstToken line = "GET".toList ∨ firstToken line = "EXISTS".toList →
      (processCommand s line).2 = s) ∧
    (∀ lines : List Str, (∀ l ∈ lines, firstToken l = "GET".toList) →
      processCommand (lines.foldl (fun t l => (processCommand t l).2) s)
        ("EXISTS ".toList ++ k) = processCommand s ("EXISTS ".toList ++ k)) := by
  have hframe : ∀ (t : KVStore) (line : Str),
      firstToken line = "GET".toList ∨ firstToken line = "EXISTS".toList →
      (processCommand t line).2 = t := by
    intro t line h
    rw [processCommand_eq]
    rcases h with h | h
    · rw [h]
      simp only [show ¬ "GET".toList = "SET".toList by decide, if_false, if_true]
      split
      · rfl
      · split <;> rfl
    · rw [h]
      simp only [show ¬ "EXISTS".toList = "SET".toList by decide,
        show ¬ "EXISTS".toList = "GET".toList by decide,
        show ¬ "EXISTS".toList = "DELETE".toList by decide, if_false, if_true]
      split <;> rfl
  refine ⟨?_, ?_, hframe s, ?_⟩
  · intro h
    rw [processCommand_exists s k hk hkw, (KVStore.exists_iff_mem s k).2 h]
    rfl
  · intro h
    rw [← KVStore.exists_iff_mem] at h
    rw [processCommand_exists s k hk hkw]
    simp [h]
  · intro lines hl
    have hs : lines.foldl (fun t l => (processCommand t l).2) s = s := by
      induction lines with
      | nil => rfl
      | cons a t ih =>
        rw [List.foldl_cons, hframe s a (Or.inl (hl a (List.mem_cons_self a t)))]
        exact ih (fun l h => hl l (List.mem_cons_of_mem a h))
    rw [hs]

theorem exists_reflects_membership_witness :
    processCommand (KVStore.empty.set "name".toList "Alice".toList)
      ("EXISTS ".toList ++ "name".toList)
      = ("OK 1\n".toList, KVStore.empty.set "name".toList "Alice".toList) ∧
    processCommand (KVStore.empty.set "name".toList "Alice".toList)
      ("EXISTS ".toList ++ "notfound".toList)
      = ("OK 0\n".toList, KVStore.empty.set "name".toList "Alice".toList) :=
  ⟨(exists_reflects_membership (KVStore.empty.set "name".toList "Alice".toList)
      "name".toList (by decide) (by decide)).1 (by decide),
   (exists_reflects_membership (KVStore.empty.set "name".toList "Alice".toList)
      "notfound".toList (by decide) (by decide)).2.1 (by decide)⟩

/-- C8: for every command line whose first whitespace-delimited token is not
exactly `SET`, `GET`, `DELETE` or `EXISTS`, `processCommand` returns
`"ERROR INVALID_COMMAND\n"`, whatever follows the verb, and leaves the store
as it was. -/
theorem unknown_verb_invalid_command (s : KVStore) (line : Str)
    (h1 : firstToken line ≠ "SET".toList) (h2 : firstToken line ≠ "GET".toList)
    (h3 : firstToken line ≠ "DELETE".toList) (h4 : firstToken line ≠ "EXISTS".toList) :
    processCommand s line = ("ERROR INVALID_COMMAND\n".toList, s) := by
  rw [processCommand_eq]
  simp only [h1, h2, h3, h4, if_false]

theorem unknown_verb_invalid_command_witness :
    processCommand KVStore.empty "FOO bar".toList
      = ("ERROR INVALID_COMMAND\n".toList, KVStore.empty) ∧
    processCommand KVStore.empty "get name".toList
      = ("ERROR INVALID_COMMAND\n".toList, KVStore.empty) ∧
    processCommand KVStore.empty "Set".toList
      = ("ERROR INVALID_COMMAND\n".toList, KVStore.empty) :=
  ⟨unknown_verb_invalid_command KVStore.empty "FOO bar".toList
      (by decide) (by decide) (by decide) (by decide),
   unknown_verb_invalid_command KVStore.empty "get name".toList
      (by decide) (by decide) (by decide) (by decide),
   unknown_verb_invalid_command KVStore.empty "Set".toList
      (by decide) (by decide) (by decide) (by decide)⟩

/-- C9: a line whose verb is `SET`, `GET`, `DELETE` or `EXISTS` and that has
no key token gets `"ERROR MISSING_ARGUMENTS\n"`; so does a `SET` line with a
key token whose remainder after the key token is empty once one leading space
is removed. The store is left as it was. -/
theorem missing_arguments (s : KVStore) (line : Str) :
    ((firstToken line = "SET".toList ∨ firstToken line = "GET".toList ∨
        firstToken line = "DELETE".toList ∨ firstToken line = "EXISTS".toList) →
      keyToken line = [] →
      processCommand s line = ("ERROR MISSING_ARGUMENTS\n".toList, s)) ∧
    (firstToken line = "SET".toList → keyToken line ≠ [] →
      (if (afterKey line).head? = some ' ' then (afterKey line).drop 1 else afterKey line)
        = [] →
      processCommand s line = ("ERROR MISSING_ARGUMENTS\n".toList, s)) := by
  constructor
  · intro hv hkey
    rw [processCommand_eq, hkey]
    rcases hv with h | h | h | h <;> rw [h] <;> simp
  · intro hv _ hrem
    rw [processCommand_eq, hv]
    cases hr : afterKey line with
    | nil => simp
    | cons a t =>
      rw [hr] at hrem
      by_cases ha : a = ' '
      · subst ha
        simp only [List.head?_cons, if_true, List.drop_succ_cons, List.drop_zero] at hrem
        subst hrem
        simp
      · simp [ha] at hrem

theorem missing_arguments_witness :
    processCommand KVStore.empty "GET".toList
      = ("ERROR MISSING_ARGUMENTS\n".toList, KVStore.empty) ∧
    processCommand KVStore.empty "SET k ".toList
      = ("ERROR MISSING_ARGUMENTS\n".toList, KVStore.empty) :=
  ⟨(missing_arguments KVStore.empty "GET".toList).1 (by decide) (by decide),
   (missing_arguments KVStore.empty "SET k ".toList).2 (by decide) (by decide) (by decide)⟩
/-! ## The line loop of `handleClient` -/

theorem IStringStream.getline_line (l rest old : Str) (hl : '\n' ∉ l) :
    (⟨l ++ '\n' :: rest, false, false⟩ : IStringStream).getline old
      = (⟨rest, false, false⟩, l) := by
  have hp : ∀ c ∈ l, (fun x => x != '\n') c = true := by
    intro c hc
    have : c ≠ '\n' := fun e => hl (e ▸ hc)
    simpa using this
  simp only [IStringStream.getline, Bool.or_self, Bool.false_eq_true, if_false,
    List.takeWhile_append_of_pos hp, List.dropWhile_append_of_pos hp]
  simp

theorem IStringStream.getline_end (old : Str) :
    (⟨[], false, false⟩ : IStringStream).getline old = (⟨[], true, true⟩, []) := by
  simp [IStringStream.getline]

/-- One iteration of the line loop on a complete line `l`. -/
theorem lineLoop_line (fuel : Nat) (l rest old : Str) (store_ : KVStore) (sent : Str)
    (hl : '\n' ∉ l) :
    lineLoop (fuel + 1) ⟨l ++ '\n' :: rest, false, false⟩ old store_ sent =
      if (if !l.isEmpty && l.getLast? = some '\r' then l.dropLast else l).isEmpty then
        lineLoop fuel ⟨rest, false, false⟩
          (if !l.isEmpty && l.getLast? = some '\r' then l.dropLast else l) store_ sent
      else
        lineLoop fuel ⟨rest, false, false⟩
          (if !l.isEmpty && l.getLast? = some '\r' then l.dropLast else l)
          (processCommand store_
            (if !l.isEmpty && l.getLast? = some '\r' then l.dropLast else l)).2
          (sent ++ (processCommand store_
            (if !l.isEmpty && l.getLast? = some '\r' then l.dropLast else l)).1) := by
  rw [lineLoop]
  simp only [IStringStream.getline_line l rest old hl, Bool.false_eq_true, if_false]

/-- The iteration of the line loop at the end of the data ends the loop. -/
theorem lineLoop_end (fuel : Nat) (old : Str) (store_ : KVStore) (sent : Str) :
    lineLoop (fuel + 1) ⟨[], false, false⟩ old store_ sent = some (sent, store_) := by
  rw [lineLoop]
  simp [IStringStream.getline_end]

theorem getLast?_key_ne_cr (pre k : Str) (hk : k ≠ []) (hkw : ∀ c ∈ k, isspace c = false) :
    (pre ++ k).getLast? ≠ some '\r' := by
  rw [List.getLast?_append_of_ne_nil _ hk]
  intro h
  have hm : '\r' ∈ k := List.mem_of_getLast?_eq_some h
  have := hkw '\r' hm
  simp [isspace] at this

theorem not_mem_newline_of_nospace (k : Str) (hkw : ∀ c ∈ k, isspace c = false) :
    '\n' ∉ k := by
  intro h
  have := hkw '\n' h
  simp [isspace] at this

theorem strip_cr_of_last_ne (l : Str) (h : l.getLast? ≠ some '\r') :
    (if !l.isEmpty && l.getLast? = some '\r' then l.dropLast else l) = l := by
  simp [h]

/-- The bytes sent for `"SET k v\nGET k\n"` received in one read, for a value
that does not end in `\r`. -/
theorem handleChunk_set_get (s : KVStore) (k v : Str)
    (hk : k ≠ []) (hkw : ∀ c ∈ k, isspace c = false)
    (hv : v ≠ []) (hvn : '\n' ∉ v) (hcr : v.getLast? ≠ some '\r') :
    handleChunk s ("SET ".toList ++ k ++ " ".toList ++ v ++ "\n".toList
        ++ "GET ".toList ++ k ++ "\n".toList)
      = some ("OK\n".toList ++ ("OK ".toList ++ v ++ "\n".toList), s.set k v) := by
  have hkn := not_mem_newline_of_nospace k hkw
  have e : "SET ".toList ++ k ++ " ".toList ++ v ++ "\n".toList ++ "GET ".toList ++ k
        ++ "\n".toList
      = ("SET ".toList ++ k ++ " ".toList ++ v) ++ '\n' :: (("GET ".toList ++ k) ++ '\n' :: []) := by
    simp
  have hn1 : '\n' ∉ "SET ".toList ++ k ++ " ".toList ++ v := by
    simp [hkn, hvn]
  have hn2 : '\n' ∉ "GET ".toList ++ k := by
    simp [hkn]
  have hc1 : ("SET ".toList ++ k ++ " ".toList ++ v).getLast? ≠ some '\r' := by
    rw [List.getLast?_append_of_ne_nil _ hv]
    exact hcr
  have hc2 := getLast?_key_ne_cr "GET ".toList k hk hkw
  have hs1 : (if !("SET ".toList ++ k ++ " ".toList ++ v).isEmpty
        && ("SET ".toList ++ k ++ " ".toList ++ v).getLast? = some '\r'
      then ("SET ".toList ++ k ++ " ".toList ++ v).dropLast
      else "SET ".toList ++ k ++ " ".toList ++ v) = "SET ".toList ++ k ++ " ".toList ++ v := by
    exact strip_cr_of_last_ne _ hc1
  have hs2 : (if !("GET ".toList ++ k).isEmpty && ("GET ".toList ++ k).getLast? = some '\r'
      then ("GET ".toList ++ k).dropLast else "GET ".toList ++ k) = "GET ".toList ++ k := by
    exact strip_cr_of_last_ne _ hc2
  have he1 : ("SET ".toList ++ k ++ " ".toList ++ v).isEmpty = false := by simp
  have he2 : ("GET ".toList ++ k).isEmpty = false := by simp
  have hfuel : ("SET ".toList ++ k ++ " ".toList ++ v ++ "\n".toList ++ "GET ".toList ++ k
        ++ "\n".toList).length + 2 = (k.length + v.length + k.length + 10) + 1 + 1 + 1 := by
    simp
    omega
  unfold handleChunk IStringStream.init
  rw [hfuel, e, lineLoop_line _ _ _ _ _ _ hn1, hs1, he1]
  simp only [Bool.false_eq_true, if_false]
  rw [processCommand_set s k v hk hkw hv hvn, lineLoop_line _ _ _ _ _ _ hn2, hs2, he2]
  simp only [Bool.false_eq_true, if_false]
  rw [processCommand_get _ k hk hkw, KVStore.get_set_self, lineLoop_end]
  simp

/-- The fuel `handleChunk` gives the line loop is enough: the loop ends. -/
theorem lineLoop_isSome (fuel : Nat) (stream : IStringStream) (line : Str)
    (store_ : KVStore) (sent : Str)
    (h1 : 1 ≤ fuel)
    (h2 : stream.eofbit = false → stream.failbit = false → stream.buf.length + 2 ≤ fuel) :
    (lineLoop fuel stream line store_ sent).isSome = true := by
  induction fuel generalizing stream line store_ sent with
  | zero => omega
  | succ n ih =>
    have key : (stream.getline line).1.failbit = true ∨
        ∀ l t u, (lineLoop n (stream.getline line).1 l t u).isSome = true := by
      obtain ⟨buf, eofbit, failbit⟩ := stream
      by_cases hg : (eofbit || failbit) = true
      · left
        simp [IStringStream.getline, hg]
      · have he : eofbit = false := by cases eofbit <;> simp_all
        have hf : failbit = false := by cases failbit <;> simp_all
        subst he hf
        have hlen : buf.length + 2 ≤ n + 1 := h2 rfl rfl
        right
        intro l t u
        apply ih
        · omega
        · cases hd : buf.dropWhile (fun x => x != '\n') with
          | nil => simp [IStringStream.getline, hd]
          | cons c rest =>
            have hsuf : (c :: rest).length ≤ buf.length := by
              rw [← hd]
              exact (List.dropWhile_suffix _).length_le
            simp only [List.length_cons] at hsuf
            simp only [IStringStream.getline, Bool.or_self, Bool.false_eq_true, if_false, hd]
            intro _ _
            omega
    rw [lineLoop]
    rcases hgl : stream.getline line with ⟨st, ln⟩
    rw [hgl] at key
    simp only at key ⊢
    rcases key with hk | hk
    · simp [hk]
    · split
      · rfl
      · split <;> split <;> exact hk _ _ _

theorem handleChunk_isSome (store_ : KVStore) (data : Str) :
    (handleChunk store_ data).isSome = true :=
  lineLoop_isSome _ _ _ _ _ (by omega) (by intro _ _; simp [IStringStream.init])

/-! ## Claims on the connection handler and on errors -/

/-- C2 (amended): for every non-empty key `k` without whitespace and every
non-empty value `v` without `\n` that does not end in `\r`, when the
connection handler receives `"SET k v\nGET k\n"` in one read, the bytes it
sends are `"OK\n"` followed by `"OK v\n"`, and the store holds `v` under `k`. -/
theorem wire_set_then_get (s : KVStore) (k v : Str)
    (hk : k ≠ []) (hkw : ∀ c ∈ k, isspace c = false)
    (hv : v ≠ []) (hvn : '\n' ∉ v) (hcr : v.getLast? ≠ some '\r') :
    handleChunk s ("SET ".toList ++ k ++ " ".toList ++ v ++ "\n".toList
        ++ "GET ".toList ++ k ++ "\n".toList)
      = some ("OK\n".toList ++ ("OK ".toList ++ v ++ "\n".toList), s.set k v) ∧
    handleClient s ["SET ".toList ++ k ++ " ".toList ++ v ++ "\n".toList
        ++ "GET ".toList ++ k ++ "\n".toList]
      = some ("OK\n".toList ++ ("OK ".toList ++ v ++ "\n".toList), s.set k v) := by
  have h := handleChunk_set_get s k v hk hkw hv hvn hcr
  refine ⟨h, ?_⟩
  have hne : ("SET ".toList ++ k ++ " ".toList ++ v ++ "\n".toList
      ++ "GET ".toList ++ k ++ "\n".toList).isEmpty = false := by simp
  simp only [handleClient, hne, h, Bool.false_eq_true, if_false, List.append_nil]

theorem wire_set_then_get_witness :
    handleChunk KVStore.empty ("SET ".toList ++ "name".toList ++ " ".toList
        ++ "Alice".toList ++ "\n".toList ++ "GET ".toList ++ "name".toList ++ "\n".toList)
      = some ("OK\n".toList ++ ("OK ".toList ++ "Alice".toList ++ "\n".toList),
          KVStore.empty.set "name".toList "Alice".toList) :=
  (wire_set_then_get KVStore.empty "name".toList "Alice".toList
    (by decide) (by decide) (by decide) (by decide) (by decide)).1

/-- C2 as stated fails for a value that ends in `\r`: the handler removes the
`\r` from the end of the `SET` line, so the value stored and sent back is `a`
for the value `a\r`. -/
theorem wire_set_then_get_counterexample :
    "k".toList ≠ [] ∧ "k".toList.any isspace = false ∧
    "a\r".toList ≠ [] ∧ '\n' ∉ "a\r".toList ∧
    (handleChunk KVStore.empty ("SET ".toList ++ "k".toList ++ " ".toList
        ++ "a\r".toList ++ "\n".toList ++ "GET ".toList ++ "k".toList ++ "\n".toList)).map
      Prod.fst = some "OK\nOK a\n".toList ∧
    (handleChunk KVStore.empty ("SET ".toList ++ "k".toList ++ " ".toList
        ++ "a\r".toList ++ "\n".toList ++ "GET ".toList ++ "k".toList ++ "\n".toList)).map
      Prod.fst ≠ some ("OK\n".toList ++ ("OK ".toList ++ "a\r".toList ++ "\n".toList)) := by
  decide

/-- C10: for every store and command string, if the response of
`processCommand` starts with `ERROR`, the store after the call is the store
before the call, and the response is one of the three error lines. -/
theorem error_leaves_store (s : KVStore) (line : Str)
    (h : "ERROR".toList <+: (processCommand s line).1) :
    (processCommand s line).2 = s ∧
    ((processCommand s line).1 = "ERROR MISSING_ARGUMENTS\n".toList ∨
      (processCommand s line).1 = "ERROR KEY_NOT_FOUND\n".toList ∨
      (processCommand s line).1 = "ERROR INVALID_COMMAND\n".toList) := by
  rw [processCommand_eq] at h ⊢
  dsimp only at h ⊢
  split_ifs at h ⊢ with a1 a2 a3 a4 a5 a6 a7 a8 a9
  all_goals first
    | exact ⟨rfl, Or.inl rfl⟩
    | exact ⟨rfl, Or.inr (Or.inr rfl)⟩
    | (exfalso; simp at h; done)
    | skip
  · cases hg : s.get (keyToken line) with
    | none => exact ⟨rfl, Or.inr (Or.inl rfl)⟩
    | some result =>
      rw [hg] at h
      simp at h
  · refine ⟨?_, Or.inr (Or.inl rfl)⟩
    apply KVStore.remove_of_absent
    rw [← KVStore.remove_fst]
    simpa using a9

theorem error_leaves_store_witness :
    (processCommand (KVStore.empty.set "name".toList "Alice".toList)
      "DELETE missing".toList).2 = KVStore.empty.set "name".toList "Alice".toList :=
  (error_leaves_store (KVStore.empty.set "name".toList "Alice".toList)
    "DELETE missing".toList (by decide)).1

/-! ## Size, clear and the frame of the store operations -/

namespace Entries

theorem length_assign (l : Entries) (key value : Str) :
    (assign l key value).length
      = if key ∈ l.map Prod.fst then l.length else l.length + 1 := by
  induction l with
  | nil => simp [assign]
  | cons p t ih =>
    obtain ⟨k, v⟩ := p
    by_cases h : k = key
    · simp [assign, h]
    · have h2 : ¬ key = k := fun e => h e.symm
      by_cases hm : key ∈ t.map Prod.fst
      · simp only [assign, h, if_false, List.length_cons, ih, hm, if_true, List.map_cons,
          List.mem_cons, or_true]
      · simp only [assign, h, if_false, List.length_cons, ih, hm, List.map_cons,
          List.mem_cons, h2, or_self]

theorem length_erase (l : Entries) (key : Str) (hn : (l.map Prod.fst).Nodup) :
    (erase l key).length + (if key ∈ l.map Prod.fst then 1 else 0) = l.length := by
  induction l with
  | nil => simp [erase]
  | cons p t ih =>
    obtain ⟨k, v⟩ := p
    rw [List.map_cons, List.nodup_cons] at hn
    have iht := ih hn.2
    by_cases h : k = key
    · subst h
      have hno : erase t k = t := by
        apply erase_of_count_eq_zero
        by_contra hc
        have hpos : 0 < count t k := Nat.pos_of_ne_zero hc
        simp only [count, List.length_pos, ne_eq, List.filter_eq_nil_iff, not_forall] at hpos
        obtain ⟨q, hq, hqk⟩ := hpos
        have : q.1 = k := by simpa using hqk
        exact hn.1 (List.mem_map.2 ⟨q, hq, this⟩)
      have e : erase ((k, v) :: t) k = erase t k := by simp [erase]
      rw [e, hno]
      simp
    · have h2 : ¬ key = k := fun e => h e.symm
      have e : erase ((k, v) :: t) key = (k, v) :: erase t key := by simp [erase, h]
      rw [e]
      simp only [List.length_cons, List.map_cons, List.mem_cons, h2, false_or]
      omega

theorem find_erase_ne (l : Entries) (key other : Str) (hne : other ≠ key) :
    find (erase l key) other = find l other := by
  induction l with
  | nil => rfl
  | cons p t ih =>
    obtain ⟨k, v⟩ := p
    by_cases h : k = key
    · subst h
      have h2 : ¬ k = other := fun e => hne e.symm
      have e : erase ((k, v) :: t) k = erase t k := by simp [erase]
      rw [e, ih]
      simp [find, h2]
    · have e : erase ((k, v) :: t) key = (k, v) :: erase t key := by simp [erase, h]
      rw [e]
      simp only [find, ih]

end Entries

theorem KVStore.exists_eq_isSome_get (s : KVStore) (key : Str) :
    s.exists key = (s.get key).isSome := by
  cases h : s.get key with
  | none => simpa using (KVStore.exists_false_iff_get s key).2 h
  | some v =>
    have : s.get key ≠ none := by simp [h]
    simpa using (KVStore.exists_iff_get s key).2 this

theorem KVStore.get_set_ne (s : KVStore) (key value other : Str) (hne : other ≠ key) :
    (s.set key value).get other = s.get other :=
  Entries.find_assign_ne s.data_ key value other hne

theorem KVStore.get_remove_ne (s : KVStore) (key other : Str) (hne : other ≠ key) :
    (s.remove key).2.get other = s.get other :=
  Entries.find_erase_ne s.data_ key other hne

/-- C16: `set(k, v)` increases `size()` by exactly 1 when `k` was absent and
leaves it when `k` was present; `remove(k)` decreases `size()` by exactly 1
when it returns true and leaves it when it returns false; two sets of two
different keys on an empty store give `size() == 2`. -/
theorem size_counts_distinct_keys (s : KVStore) (k v : Str) :
    (k ∉ s.data_.map Prod.fst → (s.set k v).size = s.size + 1) ∧
    (k ∈ s.data_.map Prod.fst → (s.set k v).size = s.size) ∧
    ((s.remove k).1 = true → (s.remove k).2.size + 1 = s.size) ∧
    ((s.remove k).1 = false → (s.remove k).2.size = s.size) ∧
    (∀ k1 v1 k2 v2, k1 ≠ k2 → ((KVStore.empty.set k1 v1).set k2 v2).size = 2) := by
  have hset := Entries.length_assign s.data_ k v
  have hrem := Entries.length_erase s.data_ k s.nodup
  refine ⟨?_, ?_, ?_, ?_, ?_⟩
  · intro h
    simpa [KVStore.size, KVStore.set, h] using hset
  · intro h
    simpa [KVStore.size, KVStore.set, h] using hset
  · intro h
    rw [KVStore.remove_fst, KVStore.exists_iff_mem] at h
    simpa [KVStore.size, KVStore.remove, h] using hrem
  · intro h
    rw [KVStore.remove_fst] at h
    have hm : k ∉ s.data_.map Prod.fst := by
      rw [← KVStore.exists_iff_mem, h]
      simp
    simpa [KVStore.size, KVStore.remove, hm] using hrem
  · intro k1 v1 k2 v2 hne
    simp [KVStore.size, KVStore.set, KVStore.empty, Entries.assign, hne]

theorem size_counts_distinct_keys_witness :
    ((KVStore.empty.set "key1".toList "value1".toList).set "key2".toList
        "value2".toList).size = 2 ∧
    (((KVStore.empty.set "key1".toList "value1".toList).set "key2".toList
        "value2".toList).set "key1".toList "other".toList).size = 2 ∧
    (((KVStore.empty.set "key1".toList "value1".toList).set "key2".toList
        "value2".toList).remove "key1".toList).2.size + 1 = 2 :=
  ⟨(size_counts_distinct_keys KVStore.empty [] []).2.2.2.2
      "key1".toList "value1".toList "key2".toList "value2".toList (by decide),
   (size_counts_distinct_keys ((KVStore.empty.set "key1".toList "value1".toList).set
      "key2".toList "value2".toList) "key1".toList "other".toList).2.1 (by decide),
   (size_counts_distinct_keys ((KVStore.empty.set "key1".toList "value1".toList).set
      "key2".toList "value2".toList) "key1".toList []).2.2.1 (by decide)⟩

/-- C17: after `clear()` the store has `size()` 0 and, for every key,
`exists` is false and `get` is absent. -/
theorem clear_empties_store (s : KVStore) :
    s.clear.size = 0 ∧ ∀ k, s.clear.exists k = false ∧ s.clear.get k = none := by
  refine ⟨rfl, fun k => ⟨?_, rfl⟩⟩
  simp [KVStore.clear, KVStore.empty, KVStore.exists, Entries.count]

/-- C19: for keys `k2` different from `k`, `set(k, v)` and `remove(k)` leave
`get(k2)` and `exists(k2)` as they were. -/
theorem other_keys_unchanged (s : KVStore) (k k2 v : Str) (hne : k2 ≠ k) :
    (s.set k v).get k2 = s.get k2 ∧
    (s.set k v).exists k2 = s.exists k2 ∧
    (s.remove k).2.get k2 = s.get k2 ∧
    (s.remove k).2.exists k2 = s.exists k2 := by
  refine ⟨KVStore.get_set_ne s k v k2 hne, ?_, KVStore.get_remove_ne s k k2 hne, ?_⟩
  · rw [KVStore.exists_eq_isSome_get, KVStore.exists_eq_isSome_get,
      KVStore.get_set_ne s k v k2 hne]
  · rw [KVStore.exists_eq_isSome_get, KVStore.exists_eq_isSome_get,
      KVStore.get_remove_ne s k k2 hne]

theorem other_keys_unchanged_witness :
    ((KVStore.empty.set "name".toList "Alice".toList).set "key1".toList
        "value1".toList).get "name".toList
      = (KVStore.empty.set "name".toList "Alice".toList).get "name".toList ∧
    ((KVStore.empty.set "name".toList "Alice".toList).remove "key1".toList).2.exists
        "name".toList
      = (KVStore.empty.set "name".toList "Alice".toList).exists "name".toList :=
  ⟨(other_keys_unchanged (KVStore.empty.set "name".toList "Alice".toList)
      "key1".toList "name".toList "value1".toList (by decide)).1,
   (other_keys_unchanged (KVStore.empty.set "name".toList "Alice".toList)
      "key1".toList "name".toList "value1".toList (by decide)).2.2.2⟩

/-! ## What `processCommand` stores and how it answers -/

theorem Entries.mem_assign (l : Entries) (key value : Str) (p : Str × Str)
    (hp : p ∈ Entries.assign l key value) : p ∈ l ∨ p = (key, value) := by
  induction l with
  | nil =>
    simp only [Entries.assign, List.mem_singleton] at hp
    exact Or.inr hp
  | cons q t ih =>
    obtain ⟨k, v⟩ := q
    by_cases h : k = key
    · simp only [Entries.assign, h, if_true, List.mem_cons] at hp
      rcases hp with hp | hp
      · exact Or.inr hp
      · exact Or.inl (List.mem_cons_of_mem _ hp)
    · simp only [Entries.assign, h, if_false, List.mem_cons] at hp
      rcases hp with hp | hp
      · exact Or.inl (hp ▸ List.mem_cons_self _ _)
      · rcases ih hp with h1 | h1
        · exact Or.inl (List.mem_cons_of_mem _ h1)
        · exact Or.inr h1

theorem Entries.mem_of_find (l : Entries) (key value : Str)
    (h : Entries.find l key = some value) : (key, value) ∈ l := by
  induction l with
  | nil => simp [Entries.find] at h
  | cons q t ih =>
    obtain ⟨k, v⟩ := q
    by_cases hk : k = key
    · simp only [Entries.find, hk, if_true, Option.some.injEq] at h
      subst hk h
      exact List.mem_cons_self _ _
    · simp only [Entries.find, hk, if_false] at h
      exact List.mem_cons_of_mem _ (ih h)

theorem firstToken_nospace (line : Str) : ∀ c ∈ firstToken line, isspace c = false := by
  intro c hc
  have := List.mem_takeWhile_imp hc
  simpa using this

theorem not_mem_newline_takeWhile (l : Str) :
    '\n' ∉ l.takeWhile (fun x => x != '\n') := by
  intro h
  have := List.mem_takeWhile_imp h
  simp at this

theorem valueOf_no_newline (line : Str) : '\n' ∉ valueOf line := by
  unfold valueOf
  dsimp only
  split
  · exact fun hm => not_mem_newline_takeWhile _ (List.mem_of_mem_drop hm)
  · exact not_mem_newline_takeWhile _

/-- `processCommand_eq` with the value of a `SET` line named. -/
theorem processCommand_eq_value (store_ : KVStore) (line : Str) :
    processCommand store_ line =
      if firstToken line = "SET".toList then
        if (keyToken line).isEmpty || (valueOf line).isEmpty then
          ("ERROR MISSING_ARGUMENTS\n".toList, store_)
        else
          ("OK\n".toList, store_.set (keyToken line) (valueOf line))
      else if firstToken line = "GET".toList then
        if (keyToken line).isEmpty then
          ("ERROR MISSING_ARGUMENTS\n".toList, store_)
        else
          match store_.get (keyToken line) with
          | some result => ("OK ".toList ++ result ++ "\n".toList, store_)
          | none => ("ERROR KEY_NOT_FOUND\n".toList, store_)
      else if firstToken line = "DELETE".toList then
        if (keyToken line).isEmpty then
          ("ERROR MISSING_ARGUMENTS\n".toList, store_)
        else if (store_.remove (keyToken line)).1 then
          ("OK\n".toList, (store_.remove (keyToken line)).2)
        else
          ("ERROR KEY_NOT_FOUND\n".toList, (store_.remove (keyToken line)).2)
      else if firstToken line = "EXISTS".toList then
        if (keyToken line).isEmpty then
          ("ERROR MISSING_ARGUMENTS\n".toList, store_)
        else
          (if store_.exists (keyToken line) then "OK 1\n".toList else "OK 0\n".toList, store_)
      else
        ("ERROR INVALID_COMMAND\n".toList, store_) :=
  processCommand_eq store_ line

/-- `processCommand` keeps every entry of the store well formed. -/
theorem processCommand_entryOk (s : KVStore) (line : Str)
    (h : ∀ p ∈ s.data_, EntryOk p) : ∀ p ∈ (processCommand s line).2.data_, EntryOk p := by
  have hrem : ∀ key, ∀ p ∈ (s.remove key).2.data_, EntryOk p := by
    intro key p hp
    exact h p (List.mem_of_mem_filter hp)
  have hv := valueOf_no_newline line
  rw [processCommand_eq_value]
  generalize valueOf line = value at hv
  split_ifs with a1 a2 a3 a4 a5 a6 a7 a8 a9
  all_goals first
    | exact h
    | exact hrem _
    | skip
  · intro p hp
    rcases Entries.mem_assign _ _ _ _ hp with hp | hp
    · exact h p hp
    · subst hp
      simp only [Bool.or_eq_true, not_or, List.isEmpty_iff] at a2
      exact ⟨a2.1, firstToken_nospace _, a2.2, hv⟩
  · split <;> exact h

theorem runCommands_entryOk (commands : List Str) (s : KVStore)
    (h : ∀ p ∈ s.data_, EntryOk p) : ∀ p ∈ (runCommands s commands).data_, EntryOk p := by
  induction commands generalizing s with
  | nil => exact h
  | cons c cs ih => exact ih _ (processCommand_entryOk s c h)

/-- In a store whose values have no `\n`, every response is one line that
starts with `OK` or `ERROR`. -/
theorem processCommand_framed (s : KVStore) (line : Str)
    (h : ∀ p ∈ s.data_, EntryOk p) :
    ("OK".toList <+: (processCommand s line).1 ∨
      "ERROR".toList <+: (processCommand s line).1) ∧
    (processCommand s line).1.getLast? = some '\n' ∧
    '\n' ∉ (processCommand s line).1.dropLast := by
  rw [processCommand_eq_value]
  generalize valueOf line = value
  split_ifs with a1 a2 a3 a4 a5 a6 a7 a8 a9
  all_goals try dsimp only
  all_goals first
    | exact ⟨Or.inl (by decide), by decide, by decide⟩
    | exact ⟨Or.inr (by decide), by decide, by decide⟩
    | skip
  · cases hg : s.get (keyToken line) with
    | none =>
      dsimp only
      exact ⟨Or.inr (by decide), by decide, by decide⟩
    | some v =>
      have hv : '\n' ∉ v := (h _ (Entries.mem_of_find _ _ _ hg)).2.2.2
      have e : ("OK ".toList ++ v ++ "\n".toList) = ("OK ".toList ++ v) ++ ['\n'] := by simp
      dsimp only
      refine ⟨Or.inl ⟨' ' :: (v ++ ['\n']), by simp⟩, ?_, ?_⟩
      · rw [e]
        exact List.getLast?_concat _
      · rw [e, List.dropLast_concat]
        simpa using hv

/-- C11: in every store reachable from the empty store by `processCommand`
calls on arbitrary command strings, the response to any command starts with
`OK` or `ERROR`, ends with `\n` and has no other `\n`. -/
theorem response_framing (commands : List Str) (command : Str) :
    ("OK".toList <+: (processCommand (runCommands KVStore.empty commands) command).1 ∨
      "ERROR".toList <+: (processCommand (runCommands KVStore.empty commands) command).1) ∧
    (processCommand (runCommands KVStore.empty commands) command).1.getLast? = some '\n' ∧
    '\n' ∉ (processCommand (runCommands KVStore.empty commands) command).1.dropLast :=
  processCommand_framed _ _
    (runCommands_entryOk commands KVStore.empty (fun p hp => absurd hp (List.not_mem_nil p)))

/-- C18: in every store reachable from the empty store by `processCommand`
calls on arbitrary command strings, every stored key is not empty and has no
whitespace character (so no `\n`), and every stored value is not empty and has
no `\n`. -/
theorem stored_entries_well_formed (commands : List Str) :
    ∀ p ∈ (runCommands KVStore.empty commands).data_,
      p.1 ≠ [] ∧ (∀ c ∈ p.1, isspace c = false) ∧ '\n' ∉ p.1 ∧ p.2 ≠ [] ∧ '\n' ∉ p.2 := by
  intro p hp
  have h := runCommands_entryOk commands KVStore.empty
    (fun q hq => absurd hq (List.not_mem_nil q)) p hp
  exact ⟨h.1, h.2.1, not_mem_newline_of_nospace _ h.2.1, h.2.2.1, h.2.2.2⟩

theorem stored_entries_well_formed_witness :
    "greeting".toList ≠ [] ∧ "greeting".toList.any isspace = false ∧
    "hello there world".toList ≠ [] ∧ '\n' ∉ "hello there world".toList := by
  have h := stored_entries_well_formed
    ["SET greeting hello there world".toList, "FOO bar".toList, "SET x".toList]
    ("greeting".toList, "hello there world".toList) (by decide)
  exact ⟨h.1, by decide, h.2.2.2.1, h.2.2.2.2⟩

/-! ## The line loop reads the lines of the data -/

theorem strip_eq_stripCR (l : Str) :
    (if !l.isEmpty && l.getLast? = some '\r' then l.dropLast else l) = stripCR l := by
  unfold stripCR
  cases l with
  | nil => simp
  | cons a t => simp

theorem respondLines_cons (s : KVStore) (l : Str) (ls : List Str) :
    respondLines s (l :: ls)
      = ((respondLines s [l]).1 ++ (respondLines (respondLines s [l]).2 ls).1,
         (respondLines (respondLines s [l]).2 ls).2) := by
  by_cases h : stripCR l = []
  · simp [respondLines, h]
  · simp [respondLines, h]

theorem respondLines_append (s : KVStore) (ls ms : List Str) :
    respondLines s (ls ++ ms)
      = ((respondLines s ls).1 ++ (respondLines (respondLines s ls).2 ms).1,
         (respondLines (respondLines s ls).2 ms).2) := by
  induction ls generalizing s with
  | nil => simp [respondLines]
  | cons l ls ih =>
    rw [List.cons_append, respondLines_cons, ih, respondLines_cons s l ls]
    simp

/-- One iteration of the line loop on a complete line, by `respondLines`. -/
theorem lineLoop_line_respond (fuel : Nat) (l rest old : Str) (s : KVStore) (sent : Str)
    (hl : '\n' ∉ l) :
    lineLoop (fuel + 1) ⟨l ++ '\n' :: rest, false, false⟩ old s sent
      = lineLoop fuel ⟨rest, false, false⟩ (stripCR l) (respondLines s [l]).2
          (sent ++ (respondLines s [l]).1) := by
  rw [lineLoop_line _ _ _ _ _ _ hl, strip_eq_stripCR]
  by_cases h : stripCR l = []
  · simp [respondLines, h]
  · simp [respondLines, h]

/-- The iterations of the line loop on data that ends without a `\n`: the
unterminated rest is a line of its own. -/
theorem lineLoop_rest (fuel : Nat) (l old : Str) (s : KVStore) (sent : Str)
    (hl : '\n' ∉ l) (hne : l ≠ []) :
    lineLoop (fuel + 2) ⟨l, false, false⟩ old s sent
      = some (sent ++ (respondLines s [l]).1, (respondLines s [l]).2) := by
  have hp : ∀ c ∈ l, (fun x => x != '\n') c = true := by
    intro c hc
    have : c ≠ '\n' := fun e => hl (e ▸ hc)
    simpa using this
  have hg : (⟨l, false, false⟩ : IStringStream).getline old = (⟨[], true, false⟩, l) := by
    have h1 : l.takeWhile (fun x => x != '\n') = l := List.takeWhile_eq_self_iff.2 hp
    have h2 : l.dropWhile (fun x => x != '\n') = [] := List.dropWhile_eq_nil_iff.2 hp
    simp only [IStringStream.getline, Bool.or_self, Bool.false_eq_true, if_false, h1, h2]
    simp [hne]
  have hend : ∀ (ln : Str) (t : KVStore) (u : Str),
      lineLoop (fuel + 1) ⟨[], true, false⟩ ln t u = some (u, t) := by
    intro ln t u
    rw [lineLoop]
    simp [IStringStream.getline]
  rw [lineLoop]
  simp only [hg, Bool.false_eq_true, if_false, strip_eq_stripCR, hend]
  by_cases h : stripCR l = []
  · simp [respondLines, h]
  · simp [respondLines, h]

theorem getlines_line (l rest : Str) (hl : '\n' ∉ l) :
    getlines (l ++ '\n' :: rest) = l :: getlines rest := by
  induction l with
  | nil => simp [getlines]
  | cons c t ih =>
    have hc : c ≠ '\n' := fun e => hl (e ▸ List.mem_cons_self _ _)
    have ht : '\n' ∉ t := fun h => hl (List.mem_cons_of_mem _ h)
    simp [getlines, hc, ih ht]

theorem getlines_rest (l : Str) (hl : '\n' ∉ l) (hne : l ≠ []) : getlines l = [l] := by
  induction l with
  | nil => exact absurd rfl hne
  | cons c t ih =>
    have hc : c ≠ '\n' := fun e => hl (e ▸ List.mem_cons_self _ _)
    have ht : '\n' ∉ t := fun h => hl (List.mem_cons_of_mem _ h)
    cases t with
    | nil => simp [getlines, hc]
    | cons d u =>
      have e : getlines (c :: d :: u)
          = match getlines (d :: u) with
            | [] => [[c]]
            | l :: ls => (c :: l) :: ls := by
        rw [getlines]
        simp only [hc, if_false]
      rw [e, ih ht (by simp)]

/-- Data either has no `\n` or is a first line, a `\n` and the rest. -/
theorem data_cases (data : Str) :
    '\n' ∉ data ∨ ∃ l rest, '\n' ∉ l ∧ data = l ++ '\n' :: rest := by
  induction data with
  | nil => exact Or.inl (by simp)
  | cons c t ih =>
    by_cases hc : c = '\n'
    · exact Or.inr ⟨[], t, by simp, by simp [hc]⟩
    · rcases ih with h | ⟨l, rest, hl, e⟩
      · left
        intro hm
        rcases List.mem_cons.1 hm with h1 | h1
        · exact hc h1.symm
        · exact h h1
      · right
        refine ⟨c :: l, rest, ?_, by simp [e]⟩
        intro hm
        rcases List.mem_cons.1 hm with h1 | h1
        · exact hc h1.symm
        · exact hl h1

/-- The line loop answers the lines `getline` reads from the data, in order. -/
theorem lineLoop_getlines (fuel : Nat) (data old : Str) (s : KVStore) (sent : Str)
    (hf : data.length + 2 ≤ fuel) :
    lineLoop fuel ⟨data, false, false⟩ old s sent
      = some (sent ++ (respondLines s (getlines data)).1,
          (respondLines s (getlines data)).2) := by
  induction fuel generalizing data old s sent with
  | zero => omega
  | succ n ih =>
    rcases data_cases data with h | ⟨l, rest, hl, e⟩
    · by_cases hne : data = []
      · subst hne
        rw [lineLoop_end]
        simp [getlines, respondLines]
      · obtain ⟨m, rfl⟩ : ∃ m, n = m + 1 := ⟨n - 1, by omega⟩
        rw [lineLoop_rest _ _ _ _ _ h hne, getlines_rest _ h hne]
    · subst e
      have hlen : rest.length + 2 ≤ n := by
        simp only [List.length_append, List.length_cons] at hf
        omega
      rw [lineLoop_line_respond _ _ _ _ _ _ hl, ih _ _ _ _ hlen, getlines_line _ _ hl,
        respondLines_cons s l (getlines rest)]
      simp

theorem handleChunk_eq (s : KVStore) (data : Str) :
    handleChunk s data = some (respondLines s (getlines data)) := by
  unfold handleChunk IStringStream.init
  rw [lineLoop_getlines _ _ _ _ _ (le_refl _)]
  simp

theorem getlines_ne_nil (l : Str) (hne : l ≠ []) : getlines l ≠ [] := by
  cases l with
  | nil => exact absurd rfl hne
  | cons c t =>
    rw [getlines]
    split
    · simp
    · split <;> simp

theorem getlines_append (c d : Str) (hc : c = [] ∨ c.getLast? = some '\n') :
    getlines (c ++ d) = getlines c ++ getlines d := by
  induction c with
  | nil => simp [getlines]
  | cons a t ih =>
    have hlast : (a :: t).getLast? = some '\n' := by
      rcases hc with h | h
      · exact absurd h (by simp)
      · exact h
    by_cases ha : a = '\n'
    · have ht : t = [] ∨ t.getLast? = some '\n' := by
        cases t with
        | nil => exact Or.inl rfl
        | cons b u => exact Or.inr (by simpa using hlast)
      simp [getlines, ha, ih ht]
    · cases t with
      | nil =>
        simp only [List.getLast?_singleton, Option.some.injEq] at hlast
        exact absurd hlast ha
      | cons b u =>
        have ht : (b :: u).getLast? = some '\n' := by simpa using hlast
        have hne := getlines_ne_nil (b :: u) (by simp)
        have e1 : getlines (a :: b :: u ++ d)
            = match getlines (b :: u ++ d) with
              | [] => [[a]]
              | l :: ls => (a :: l) :: ls := by
          rw [List.cons_append, getlines]
          simp only [ha, if_false]
        have e2 : getlines (a :: b :: u)
            = match getlines (b :: u) with
              | [] => [[a]]
              | l :: ls => (a :: l) :: ls := by
          rw [getlines]
          simp only [ha, if_false]
        rw [e1, e2, ih (Or.inr ht)]
        cases hg : getlines (b :: u) with
        | nil => exact absurd hg hne
        | cons l ls => simp

theorem getlines_flatten (lines : List Str) (h : ∀ l ∈ lines, '\n' ∉ l) :
    getlines ((lines.map (fun l => l ++ ['\n'])).flatten) = lines := by
  induction lines with
  | nil => simp [getlines]
  | cons l ls ih =>
    have hl : '\n' ∉ l := h l (List.mem_cons_self _ _)
    have e : ((l :: ls).map (fun l => l ++ ['\n'])).flatten
        = l ++ '\n' :: (ls.map (fun l => l ++ ['\n'])).flatten := by simp
    rw [e, getlines_line _ _ hl, ih (fun m hm => h m (List.mem_cons_of_mem _ hm))]

/-- `handleClient` on reads that all end at the end of a line answers the
lines of the whole input. -/
theorem handleClient_line_ends (s : KVStore) (chunks : List Str)
    (h : ∀ c ∈ chunks, c.getLast? = some '\n') :
    handleClient s chunks = some (respondLines s (getlines chunks.flatten)) := by
  induction chunks generalizing s with
  | nil => simp [handleClient, getlines, respondLines]
  | cons c cs ih =>
    have hc : c.getLast? = some '\n' := h c (List.mem_cons_self _ _)
    have hne : c.isEmpty = false := by
      cases c with
      | nil => simp at hc
      | cons a t => rfl
    rw [handleClient]
    simp only [hne, Bool.false_eq_true, if_false, handleChunk_eq,
      ih _ (fun d hd => h d (List.mem_cons_of_mem _ hd)), List.flatten_cons,
      getlines_append c cs.flatten (Or.inr hc), respondLines_append]

theorem stripCR_eq_nil_iff (l : Str) : stripCR l = [] ↔ l = [] ∨ l = ['\r'] := by
  unfold stripCR
  constructor
  · intro h
    split at h
    · rename_i hl
      right
      have := List.dropLast_append_getLast? _ hl
      rw [h] at this
      simpa using this.symm
    · exact Or.inl h
  · rintro (h | h) <;> subst h <;> simp

theorem processCommand_blank (s : KVStore) (w : Str) (hw : ∀ c ∈ w, isspace c = true) :
    processCommand s w = ("ERROR INVALID_COMMAND\n".toList, s) := by
  have h : firstToken w = [] := by
    unfold firstToken
    rw [List.dropWhile_eq_nil_iff.2 hw]
    rfl
  rw [processCommand_eq, h]
  simp

/-! ## Claims on the line loop -/

/-- C12 (amended): two sequences of reads that all end at the end of a line
(every chunk ends in `\n`) and have the same concatenation produce the same
sent bytes and the same final store. -/
theorem chunk_boundaries_at_line_ends (s : KVStore) (chunks1 chunks2 : List Str)
    (h1 : ∀ c ∈ chunks1, c.getLast? = some '\n')
    (h2 : ∀ c ∈ chunks2, c.getLast? = some '\n')
    (he : chunks1.flatten = chunks2.flatten) :
    handleClient s chunks1 = handleClient s chunks2 := by
  rw [handleClient_line_ends s chunks1 h1, handleClient_line_ends s chunks2 h2, he]

theorem chunk_boundaries_at_line_ends_witness :
    handleClient KVStore.empty ["SET name Alice\n".toList, "GET name\nGET x\n".toList]
      = handleClient KVStore.empty ["SET name Alice\nGET name\n".toList, "GET x\n".toList] :=
  chunk_boundaries_at_line_ends KVStore.empty
    ["SET name Alice\n".toList, "GET name\nGET x\n".toList]
    ["SET name Alice\nGET name\n".toList, "GET x\n".toList]
    (by decide) (by decide) (by decide)

/-- C12 as stated fails: the two parts of a line that is split over two reads
are answered as two lines, `SET name Al` and `ice`. -/
theorem chunk_boundary_counterexample :
    ["SET name Al".toList, "ice\n".toList].flatten = ["SET name Alice\n".toList].flatten ∧
    (handleClient KVStore.empty ["SET name Al".toList, "ice\n".toList]).map Prod.fst
      = some "OK\nERROR INVALID_COMMAND\n".toList ∧
    (handleClient KVStore.empty ["SET name Alice\n".toList]).map Prod.fst
      = some "OK\n".toList ∧
    (handleClient KVStore.empty ["SET name Al".toList, "ice\n".toList]).map
        (fun r => r.2.data_) = some [("name".toList, "Al".toList)] ∧
    (handleClient KVStore.empty ["SET name Alice\n".toList]).map
        (fun r => r.2.data_) = some [("name".toList, "Alice".toList)] := by
  decide

/-- C13 fails on the code: the bytes after the last `\n` of a read are handed
to `processCommand` like a complete line; the unterminated `SET name Alice`
is answered `OK\n` and changes the store, and an unterminated `GET name` is
answered too. -/
theorem unterminated_line_is_answered :
    '\n' ∉ "SET name Alice".toList ∧
    (handleClient KVStore.empty ["SET name Alice".toList]).map Prod.fst
      = some "OK\n".toList ∧
    (handleClient KVStore.empty ["SET name Alice".toList]).map (fun r => r.2.data_)
      = some [("name".toList, "Alice".toList)] ∧
    (handleClient KVStore.empty ["FOO\nGET name".toList]).map Prod.fst
      = some "ERROR INVALID_COMMAND\nERROR KEY_NOT_FOUND\n".toList := by
  decide

/-- C14: for every chunk made only of `\n`-terminated lines, the bytes sent
are the responses of `processCommand`, in order, one for each line that is not
empty after one trailing `\r` is removed, each on the store the lines before
it left; the empty lines, `""` and `"\r"`, add no bytes and leave the store. -/
theorem one_response_per_line (s : KVStore) (lines : List Str)
    (h : ∀ l ∈ lines, '\n' ∉ l) :
    handleChunk s ((lines.map (fun l => l ++ ['\n'])).flatten)
      = some (respondLines s lines) ∧
    (lines ≠ [] → handleClient s [(lines.map (fun l => l ++ ['\n'])).flatten]
      = some (respondLines s lines)) ∧
    (∀ l, stripCR l = [] ↔ l = [] ∨ l = ['\r']) := by
  have hc : handleChunk s ((lines.map (fun l => l ++ ['\n'])).flatten)
      = some (respondLines s lines) := by
    rw [handleChunk_eq, getlines_flatten lines h]
  refine ⟨hc, ?_, stripCR_eq_nil_iff⟩
  intro hne
  have hn : ((lines.map (fun l => l ++ ['\n'])).flatten).isEmpty = false := by
    cases lines with
    | nil => exact absurd rfl hne
    | cons l ls => cases l <;> simp
  simp only [handleClient, hn, hc, Bool.false_eq_true, if_false, List.append_nil]

theorem one_response_per_line_witness :
    handleChunk KVStore.empty
      ((["SET name Alice".toList, [], "GET name\r".toList, "\r".toList, "FOO".toList].map
        (fun l => l ++ ['\n'])).flatten)
      = some (respondLines KVStore.empty
          ["SET name Alice".toList, [], "GET name\r".toList, "\r".toList, "FOO".toList]) ∧
    (respondLines KVStore.empty
      ["SET name Alice".toList, [], "GET name\r".toList, "\r".toList, "FOO".toList]).1
      = "OK\nOK Alice\nERROR INVALID_COMMAND\n".toList :=
  ⟨(one_response_per_line KVStore.empty
      ["SET name Alice".toList, [], "GET name\r".toList, "\r".toList, "FOO".toList]
      (by decide)).1, by decide⟩

/-- C15 (amended): a received line that is empty after one trailing `\r` is
removed (the empty line and the line `\r`) is skipped: the loop goes on with
the store and the bytes sent as they were, and no response is sent. A line
that has only spaces or tabs is not skipped: it is answered
`ERROR INVALID_COMMAND\n`. -/
theorem empty_lines_skipped (s : KVStore) (l : Str) (hl : l = [] ∨ l = ['\r'])
    (fuel : Nat) (rest old sent : Str) :
    lineLoop (fuel + 1) ⟨l ++ '\n' :: rest, false, false⟩ old s sent
      = lineLoop fuel ⟨rest, false, false⟩ [] s sent ∧
    handleChunk s (l ++ ['\n']) = some ([], s) ∧
    (∀ w : Str, w ≠ [] → (∀ c ∈ w, c = ' ' ∨ c = '\t') →
      handleChunk s (w ++ ['\n']) = some ("ERROR INVALID_COMMAND\n".toList, s)) := by
  have hs : stripCR l = [] := (stripCR_eq_nil_iff l).2 hl
  have hn : '\n' ∉ l := by
    rcases hl with h | h <;> subst h <;> decide
  refine ⟨?_, ?_, ?_⟩
  · rw [lineLoop_line_respond _ _ _ _ _ _ hn, hs]
    simp [respondLines, hs]
  · have e : l ++ ['\n'] = ([l].map (fun l => l ++ ['\n'])).flatten := by simp
    rw [e, handleChunk_eq, getlines_flatten [l] (by simpa using hn)]
    simp [respondLines, hs]
  · intro w hne hw
    have hwn : '\n' ∉ w := by
      intro hm
      rcases hw _ hm with h | h <;> exact absurd h (by decide)
    have hws : ∀ c ∈ w, isspace c = true := by
      intro c hc
      rcases hw c hc with h | h <;> subst h <;> decide
    have hcr : w.getLast? ≠ some '\r' := by
      intro hlast
      rcases hw _ (List.mem_of_getLast?_eq_some hlast) with h | h <;>
        exact absurd h (by decide)
    have hstrip : stripCR w = w := by simp [stripCR, hcr]
    have e : w ++ ['\n'] = ([w].map (fun l => l ++ ['\n'])).flatten := by simp
    rw [e, handleChunk_eq, getlines_flatten [w] (by simpa using hwn)]
    simp [respondLines, hstrip, hne, processCommand_blank s w hws]

theorem empty_lines_skipped_witness :
    handleChunk KVStore.empty ("\r".toList ++ ['\n']) = some ([], KVStore.empty) ∧
    handleChunk KVStore.empty (" \t ".toList ++ ['\n'])
      = some ("ERROR INVALID_COMMAND\n".toList, KVStore.empty) :=
  ⟨(empty_lines_skipped KVStore.empty "\r".toList (by decide) 0 [] [] []).2.1,
   (empty_lines_skipped KVStore.empty [] (by decide) 0 [] [] []).2.2 " \t ".toList
     (by decide) (by decide)⟩

/-- C15 as stated fails for a line that has only spaces or tabs: it is handed
to `processCommand` and answered. -/
theorem blank_line_counterexample :
    (" ".toList.dropWhile isspace).length = 0 ∧
    (handleChunk KVStore.empty " \n".toList).map Prod.fst
      = some "ERROR INVALID_COMMAND\n".toList ∧
    (handleChunk KVStore.empty "\t\n".toList).map Prod.fst
      = some "ERROR INVALID_COMMAND\n".toList := by
  decide

/-- For a verb other than `SET`, `processCommand` depends on the line only
through its first two tokens. -/
theorem processCommand_of_tokens (s : KVStore) (line1 line2 : Str)
    (hverb : firstToken line1 ≠ "SET".toList)
    (h1 : firstToken line1 = firstToken line2) (h2 : keyToken line1 = keyToken line2) :
    processCommand s line1 = processCommand s line2 := by
  rw [processCommand_eq s line1, processCommand_eq s line2, ← h1, ← h2]
  simp only [hverb, if_false]

/-- The first two tokens of `ws1 ++ verb ++ ws2 ++ k ++ extra`. -/
theorem tokens_spaced (ws1 verb ws2 k extra : Str)
    (hws1 : ∀ c ∈ ws1, isspace c = true)
    (hverb : verb ≠ []) (hv : ∀ c ∈ verb, isspace c = false)
    (hne2 : ws2 ≠ []) (hws2 : ∀ c ∈ ws2, isspace c = true)
    (hk : k ≠ []) (hkw : ∀ c ∈ k, isspace c = false)
    (hextra : ∀ c ∈ extra.head?, isspace c = true) :
    firstToken (ws1 ++ verb ++ ws2 ++ k ++ extra) = verb ∧
    keyToken (ws1 ++ verb ++ ws2 ++ k ++ extra) = k := by
  have e : ws1 ++ verb ++ ws2 ++ k ++ extra = ws1 ++ (verb ++ (ws2 ++ (k ++ extra))) := by
    simp
  have hr : ∀ c ∈ (ws2 ++ (k ++ extra)).head?, isspace c = true := by
    cases ws2 with
    | nil => exact absurd rfl hne2
    | cons a t =>
      intro c hc
      simp only [List.cons_append, List.head?_cons, Option.mem_def, Option.some.injEq] at hc
      exact hc ▸ hws2 a (List.mem_cons_self _ _)
  have t1 := tokens_of_word ws1 verb (ws2 ++ (k ++ extra)) hws1 hverb hv hr
  have t2 := tokens_of_word ws2 k extra hws2 hk hkw hextra
  unfold keyToken
  rw [e, t1.1, t1.2, t2.1]
  exact ⟨rfl, rfl⟩

/-- C20: for `GET`, `DELETE` and `EXISTS` the response and the store effect
depend only on the first two whitespace-delimited tokens of the line: leading
whitespace, the whitespace between verb and key and the text after the key
token are ignored, so `"  GET \t" + k + " extra words"` behaves like
`"GET " + k` and is not answered `INVALID_COMMAND`. -/
theorem lookup_uses_first_two_tokens (s : KVStore) (k verb ws1 ws2 extra : Str)
    (hk : k ≠ []) (hkw : ∀ c ∈ k, isspace c = false)
    (hverb : verb = "GET".toList ∨ verb = "DELETE".toList ∨ verb = "EXISTS".toList)
    (hws1 : ∀ c ∈ ws1, isspace c = true)
    (hne2 : ws2 ≠ []) (hws2 : ∀ c ∈ ws2, isspace c = true)
    (hextra : ∀ c ∈ extra.head?, isspace c = true) :
    (∀ line1 line2 : Str, firstToken line1 = verb → firstToken line2 = verb →
      keyToken line1 = keyToken line2 → processCommand s line1 = processCommand s line2) ∧
    processCommand s (ws1 ++ verb ++ ws2 ++ k ++ extra)
      = processCommand s (verb ++ " ".toList ++ k) ∧
    (processCommand s (ws1 ++ verb ++ ws2 ++ k ++ extra)).1
      ≠ "ERROR INVALID_COMMAND\n".toList ∧
    processCommand s ("  GET \t".toList ++ k ++ " extra words".toList)
      = processCommand s ("GET ".toList ++ k) := by
  have hvne : verb ≠ [] := by
    rcases hverb with h | h | h <;> subst h <;> decide
  have hvw : ∀ c ∈ verb, isspace c = false := by
    rcases hverb with h | h | h <;> subst h <;> decide
  have hvset : verb ≠ "SET".toList := by
    rcases hverb with h | h | h <;> subst h <;> decide
  have tA := tokens_spaced ws1 verb ws2 k extra hws1 hvne hvw hne2 hws2 hk hkw hextra
  have tB := tokens_verb_key verb k [] hvne hvw hk hkw (by simp)
  have eB : verb ++ " ".toList ++ k = verb ++ ' ' :: (k ++ []) := by simp
  have hAB : processCommand s (ws1 ++ verb ++ ws2 ++ k ++ extra)
      = processCommand s (verb ++ " ".toList ++ k) := by
    apply processCommand_of_tokens
    · rw [tA.1]
      exact hvset
    · rw [tA.1, eB, tB.1]
    · rw [tA.2, eB, tB.2.1]
  refine ⟨?_, hAB, ?_, ?_⟩
  · intro line1 line2 h1 h2 h3
    exact processCommand_of_tokens s line1 line2 (h1 ▸ hvset) (h1.trans h2.symm) h3
  · rw [processCommand_eq, tA.1, tA.2]
    have hke : k.isEmpty = false := by
      cases k with
      | nil => exact absurd rfl hk
      | cons a t => rfl
    rcases hverb with h | h | h <;> subst h
    · simp only [show ¬ "GET".toList = "SET".toList by decide, if_false, if_true, hke,
        Bool.false_eq_true]
      split <;> simp
    · simp only [show ¬ "DELETE".toList = "SET".toList by decide,
        show ¬ "DELETE".toList = "GET".toList by decide, if_false, if_true, hke,
        Bool.false_eq_true]
      split <;> simp
    · simp only [show ¬ "EXISTS".toList = "SET".toList by decide,
        show ¬ "EXISTS".toList = "GET".toList by decide,
        show ¬ "EXISTS".toList = "DELETE".toList by decide, if_false, if_true, hke,
        Bool.false_eq_true]
      split <;> simp
  · have tC := tokens_spaced "  ".toList "GET".toList " \t".toList k " extra words".toList
      (by decide) (by decide) (by decide) (by decide) (by decide) hk hkw (by decide)
    have tD := tokens_verb_key "GET".toList k [] (by decide) (by decide) hk hkw (by simp)
    have eC : "  GET \t".toList ++ k ++ " extra words".toList
        = "  ".toList ++ "GET".toList ++ " \t".toList ++ k ++ " extra words".toList := by
      simp
    have eD : "GET ".toList ++ k = "GET".toList ++ ' ' :: (k ++ []) := by simp
    apply processCommand_of_tokens
    · rw [eC, tC.1]
      decide
    · rw [eC, tC.1, eD, tD.1]
    · rw [eC, tC.2, eD, tD.2.1]

theorem lookup_uses_first_two_tokens_witness :
    processCommand (KVStore.empty.set "name".toList "Alice".toList)
      ("\t".toList ++ "DELETE".toList ++ "   ".toList ++ "name".toList ++ " now".toList)
      = processCommand (KVStore.empty.set "name".toList "Alice".toList)
          ("DELETE".toList ++ " ".toList ++ "name".toList) :=
  (lookup_uses_first_two_tokens (KVStore.empty.set "name".toList "Alice".toList)
    "name".toList "DELETE".toList "\t".toList "   ".toList " now".toList
    (by decide) (by decide) (by decide) (by decide) (by decide) (by decide)
    (by decide)).2.1
